import Mathlib

/-!
Verification of the slatedb-go storage engine core against its specification.

The Go source is shallowly embedded: byte slices become `List Nat`, Go strings
become `List Char`, fallible functions return `Option` or `Except`, and the
stateful background loops are modelled as functions over explicit event lists.
-/

/-! ## Byte sequences and `bytes.Compare`

Go's `bytes.Compare(a, b)` is the lexicographic three-way comparison on byte
slices, a strict prefix comparing as smaller. -/

def bytesCompare : List Nat → List Nat → Ordering
  | [], [] => Ordering.eq
  | [], _ :: _ => Ordering.lt
  | _ :: _, [] => Ordering.gt
  | a :: as, b :: bs =>
    if a < b then Ordering.lt
    else if b < a then Ordering.gt
    else bytesCompare as bs

theorem bytesCompare_self (a : List Nat) : bytesCompare a a = Ordering.eq := by
  induction a with
  | nil => rfl
  | cons x xs ih => simp [bytesCompare, ih]

theorem bytesCompare_eq_iff : ∀ {a b : List Nat}, bytesCompare a b = Ordering.eq ↔ a = b := by
  intro a
  induction a with
  | nil => intro b; cases b <;> simp [bytesCompare]
  | cons x xs ih =>
    intro b
    cases b with
    | nil => simp [bytesCompare]
    | cons y ys =>
      rcases lt_trichotomy x y with h | h | h
      · simp only [bytesCompare, if_pos h]
        constructor
        · intro hc; cases hc
        · intro hc
          rw [List.cons.injEq] at hc
          omega
      · subst h
        simp [bytesCompare, ih]
      · simp only [bytesCompare, if_neg (Nat.lt_asymm h), if_pos h]
        constructor
        · intro hc; cases hc
        · intro hc
          rw [List.cons.injEq] at hc
          omega

theorem bytesCompare_gt_iff :
    ∀ {a b : List Nat}, bytesCompare a b = Ordering.gt ↔ bytesCompare b a = Ordering.lt := by
  intro a
  induction a with
  | nil => intro b; cases b <;> simp [bytesCompare]
  | cons x xs ih =>
    intro b
    cases b with
    | nil => simp [bytesCompare]
    | cons y ys =>
      rcases lt_trichotomy x y with h | h | h
      · simp [bytesCompare, h, Nat.lt_asymm h]
      · subst h
        simp [bytesCompare, ih]
      · simp [bytesCompare, h, Nat.lt_asymm h]

theorem bytesCompare_lt_trans : ∀ {a b c : List Nat},
    bytesCompare a b = Ordering.lt → bytesCompare b c = Ordering.lt →
    bytesCompare a c = Ordering.lt := by
  intro a
  induction a with
  | nil =>
    intro b c h1 h2
    cases b with
    | nil => simp [bytesCompare] at h1
    | cons y ys =>
      cases c with
      | nil => simp [bytesCompare] at h2
      | cons z zs => simp [bytesCompare]
  | cons x xs ih =>
    intro b c h1 h2
    cases b with
    | nil => simp [bytesCompare] at h1
    | cons y ys =>
      cases c with
      | nil =>
        simp only [bytesCompare] at h2
        cases h2
      | cons z zs =>
        simp only [bytesCompare] at h1 h2 ⊢
        by_cases hxy : x < y
        · by_cases hyz : y < z
          · simp [Nat.lt_trans hxy hyz]
          · by_cases hzy : z < y
            · simp [hyz, hzy] at h2
            · have : y = z := by omega
              subst this
              simp [hxy]
        · by_cases hyx : y < x
          · simp [hxy, hyx] at h1
          · have : x = y := by omega
            subst this
            simp only [if_neg (lt_irrefl x)] at h1
            by_cases hyz : x < z
            · simp [hyz]
            · by_cases hzy : z < x
              · simp [hyz, hzy] at h2
              · have : x = z := by omega
                subst this
                simp only [if_neg (lt_irrefl x)] at h2 ⊢
                exact ih h1 h2

theorem bytesCompare_ne_lt_of_gt {a b : List Nat} (h : bytesCompare a b = Ordering.gt) :
    bytesCompare a b ≠ Ordering.lt := by
  rw [h]; intro hc; cases hc

/-! ## `SortedRun.indexOfSSTWithKey` (package `slatedb`, linear scan)

Embedded over the list of the run's SSTs' first keys.  The Go loop sets
`index` to the first position whose first key compares greater than the
probe key, to `len` when it falls off the end of a non-empty list, and
leaves it `0` for an empty list; it then returns `Some(index-1)` when
`index > 0` and `None` otherwise. -/

def sstIndexLoop (key : List Nat) : Nat → List (List Nat) → Nat
  | _, [] => 0
  | i, fk :: rest =>
    if bytesCompare fk key = Ordering.gt then i
    else
      match rest with
      | [] => i + 1
      | _ :: _ => sstIndexLoop key (i + 1) rest

def indexOfSSTWithKey (firstKeys : List (List Nat)) (key : List Nat) : Option Nat :=
  let index := sstIndexLoop key 0 firstKeys
  if index > 0 then some (index - 1) else none

/-- The Bool form of the loop's break test: first key strictly above the probe key. -/
def gtKey (key fk : List Nat) : Bool := decide (bytesCompare fk key = Ordering.gt)

theorem sstIndexLoop_eq_findIdx (key : List Nat) :
    ∀ (l : List (List Nat)) (i : Nat), l ≠ [] →
      sstIndexLoop key i l = i + l.findIdx (gtKey key) := by
  intro l
  induction l with
  | nil => intro i h; simp at h
  | cons fk rest ih =>
    intro i _
    by_cases h : bytesCompare fk key = Ordering.gt
    · simp [sstIndexLoop, h, List.findIdx_cons, gtKey]
    · cases rest with
      | nil => simp [sstIndexLoop, h, List.findIdx_cons, gtKey]
      | cons b bs =>
        have hr := ih (i + 1) (by simp)
        simp only [sstIndexLoop, if_neg h] at *
        rw [hr]
        simp [List.findIdx_cons, gtKey, h]
        omega

theorem indexOfSSTWithKey_eq_findIdx (firstKeys : List (List Nat)) (key : List Nat) :
    indexOfSSTWithKey firstKeys key =
      if firstKeys.findIdx (gtKey key) > 0 then some (firstKeys.findIdx (gtKey key) - 1)
      else none := by
  cases firstKeys with
  | nil => rfl
  | cons a l =>
    unfold indexOfSSTWithKey
    rw [sstIndexLoop_eq_findIdx key (a :: l) 0 (by simp)]
    simp

theorem gtKey_true_iff {key fk : List Nat} :
    gtKey key fk = true ↔ bytesCompare key fk = Ordering.lt := by
  simp [gtKey, bytesCompare_gt_iff]

/-- C3: for a sorted run whose SSTs' first keys are strictly ascending,
`indexOfSSTWithKey` returns `none` exactly when the probe key is
lexicographically smaller than the first SST's first key (or the run is
empty), and otherwise returns `some i` where `i` is the unique last index
whose first key is less than or equal to the probe key. -/
theorem C3_indexOfSSTWithKey_spec (firstKeys : List (List Nat)) (key : List Nat)
    (hsorted : List.Pairwise (fun a b => bytesCompare a b = Ordering.lt) firstKeys) :
    (indexOfSSTWithKey firstKeys key = none ↔
      firstKeys = [] ∨
        ∃ fk, firstKeys.head? = some fk ∧ bytesCompare key fk = Ordering.lt) ∧
    (∀ i, indexOfSSTWithKey firstKeys key = some i ↔
      ∃ h : i < firstKeys.length,
        bytesCompare key firstKeys[i] ≠ Ordering.lt ∧
        ∀ j (hj : j < firstKeys.length), i < j →
          bytesCompare key firstKeys[j] = Ordering.lt) := by
  have hpair := List.pairwise_iff_getElem.mp hsorted
  have hJle := @List.findIdx_le_length _ (gtKey key) firstKeys
  rw [indexOfSSTWithKey_eq_findIdx]
  constructor
  · constructor
    · intro hnone
      have hJ0 : firstKeys.findIdx (gtKey key) = 0 := by
        by_contra hne
        simp [Nat.pos_of_ne_zero hne] at hnone
      cases firstKeys with
      | nil => exact Or.inl rfl
      | cons a l =>
        right
        refine ⟨a, rfl, ?_⟩
        rw [List.findIdx_cons] at hJ0
        cases hpa : gtKey key a with
        | false => simp [hpa] at hJ0
        | true => exact gtKey_true_iff.mp hpa
    · intro hcase
      rcases hcase with hnil | ⟨fk, hhead, hlt⟩
      · subst hnil; rfl
      · cases firstKeys with
        | nil => simp at hhead
        | cons a l =>
          have : fk = a := by simpa using hhead.symm
          subst this
          have hpa : gtKey key fk = true := gtKey_true_iff.mpr hlt
          simp [List.findIdx_cons, hpa]
  · intro i
    constructor
    · intro hsome
      have hJpos : 0 < firstKeys.findIdx (gtKey key) := by
        by_contra hne
        simp [Nat.le_zero.mp (Nat.not_lt.mp hne)] at hsome
      have hieq : i = firstKeys.findIdx (gtKey key) - 1 := by
        rw [if_pos hJpos] at hsome
        exact (Option.some.injEq _ _ ▸ hsome).symm
      have hlenpos : 0 < firstKeys.length := by
        cases firstKeys with
        | nil => exact absurd hJpos (lt_irrefl 0)
        | cons a l => simp
      have hi : i < firstKeys.length := by omega
      refine ⟨hi, ?_, ?_⟩
      · have hiJ : i < firstKeys.findIdx (gtKey key) := by omega
        have hfalse := List.not_of_lt_findIdx hiJ
        intro hc
        rw [← gtKey_true_iff] at hc
        rw [hc] at hfalse
        cases hfalse
      · intro j hj hij
        have hJj : firstKeys.findIdx (gtKey key) ≤ j := by omega
        have hJlt : firstKeys.findIdx (gtKey key) < firstKeys.length := by omega
        have hpJ : gtKey key firstKeys[firstKeys.findIdx (gtKey key)] = true :=
          List.findIdx_getElem (w := hJlt)
        have hkeyJ : bytesCompare key firstKeys[firstKeys.findIdx (gtKey key)] =
            Ordering.lt := gtKey_true_iff.mp hpJ
        rcases Nat.eq_or_lt_of_le hJj with heq | hlt
        · subst heq; exact hkeyJ
        · exact bytesCompare_lt_trans hkeyJ (hpair _ _ hJlt hj hlt)
    · intro hcond
      rcases hcond with ⟨hi, hnotlt, hall⟩
      have hkeyi : bytesCompare firstKeys[i] key ≠ Ordering.gt := by
        intro hc
        exact hnotlt (bytesCompare_gt_iff.mp hc)
      have hAfalse : ∀ k (hk : k < firstKeys.length), k ≤ i →
          gtKey key firstKeys[k] = false := by
        intro k hk hki
        rcases Nat.eq_or_lt_of_le hki with heq | hlt
        · subst heq
          cases hpk : gtKey key firstKeys[k] with
          | false => rfl
          | true => exact absurd (gtKey_true_iff.mp hpk) hnotlt
        · have hkl : bytesCompare firstKeys[k] firstKeys[i] = Ordering.lt :=
            hpair _ _ hk hi hlt
          cases hco : bytesCompare key firstKeys[i] with
          | lt => exact absurd hco hnotlt
          | eq =>
            have : key = firstKeys[i] := bytesCompare_eq_iff.mp hco
            rw [← this] at hkl
            cases hpk : gtKey key firstKeys[k] with
            | false => rfl
            | true =>
              have hgt' : bytesCompare firstKeys[k] key = Ordering.gt :=
                bytesCompare_gt_iff.mpr (gtKey_true_iff.mp hpk)
              rw [hkl] at hgt'
              cases hgt'
          | gt =>
            have hik : bytesCompare firstKeys[i] key = Ordering.lt :=
              bytesCompare_gt_iff.mp hco
            have : bytesCompare firstKeys[k] key = Ordering.lt :=
              bytesCompare_lt_trans hkl hik
            cases hpk : gtKey key firstKeys[k] with
            | false => rfl
            | true =>
              have hgt' : bytesCompare firstKeys[k] key = Ordering.gt :=
                bytesCompare_gt_iff.mpr (gtKey_true_iff.mp hpk)
              rw [this] at hgt'
              cases hgt'
      have hJgt : i < firstKeys.findIdx (gtKey key) := by
        by_contra hle
        have hle' : firstKeys.findIdx (gtKey key) ≤ i := Nat.not_lt.mp hle
        have hJlen : firstKeys.findIdx (gtKey key) < firstKeys.length := by omega
        have htrue : gtKey key firstKeys[firstKeys.findIdx (gtKey key)] = true :=
          List.findIdx_getElem (w := hJlen)
        have hfalse := hAfalse _ hJlen hle'
        rw [htrue] at hfalse
        cases hfalse
      have hJle' : firstKeys.findIdx (gtKey key) ≤ i + 1 := by
        by_cases hsucc : i + 1 < firstKeys.length
        · have hlt := hall (i + 1) hsucc (by omega)
          have htrue : gtKey key firstKeys[i + 1] = true := gtKey_true_iff.mpr hlt
          by_contra hgt
          have := @List.not_of_lt_findIdx _ (gtKey key) firstKeys (i + 1) (by omega)
          rw [htrue] at this
          cases this
        · omega
      have hJ : firstKeys.findIdx (gtKey key) = i + 1 := by omega
      rw [hJ]
      simp

theorem C3_indexOfSSTWithKey_spec_witness :
    (indexOfSSTWithKey [[1], [3]] [2] = none ↔
      ([[1], [3]] : List (List Nat)) = [] ∨
        ∃ fk, ([[1], [3]] : List (List Nat)).head? = some fk ∧
          bytesCompare [2] fk = Ordering.lt) ∧
    (∀ i, indexOfSSTWithKey [[1], [3]] [2] = some i ↔
      ∃ h : i < ([[1], [3]] : List (List Nat)).length,
        bytesCompare [2] (([[1], [3]] : List (List Nat))[i]) ≠ Ordering.lt ∧
        ∀ j (hj : j < ([[1], [3]] : List (List Nat)).length), i < j →
          bytesCompare [2] (([[1], [3]] : List (List Nat))[j]) = Ordering.lt) :=
  C3_indexOfSSTWithKey_spec [[1], [3]] [2] (by decide)

/-! ## `sort.Search` and the compaction package's `indexOfSSTWithKey`

Go's `sort.Search(n, f)` performs binary search with `i, j := 0, n`,
probing `h := (i+j)/2` and narrowing to `[i, h]` when `f(h)` holds and to
`[h+1, j]` otherwise, returning `i`.  The compaction package's
`indexOfSSTWithKey` applies it to the predicate that first runs
`assert.True(len(s.SSTList[i].Info.FirstKey) != 0, "sst must have first key")`
— panicking when the probed SST's first key is empty — and then answers
`bytes.Compare(s.SSTList[i].Info.FirstKey, key) > 0`.  The panic is
modelled as `none`: `binProbe` returns `none` on an empty first key, the
checked search aborts with `none` on a panicking probe, and the panic-free
`searchLoop` below is the search's behavior on probes that all answer. -/

def searchLoop (f : Nat → Bool) (i j : Nat) : Nat :=
  if i < j then
    let m := (i + j) / 2
    if f m then searchLoop f i m else searchLoop f (m + 1) j
  else i
termination_by j - i
decreasing_by
  · omega
  · omega

def binProbe (firstKeys : List (List Nat)) (key : List Nat) (i : Nat) : Option Bool :=
  let fk := firstKeys.getD i []
  if fk = [] then none else some (gtKey key fk)

def searchLoopChecked (f : Nat → Option Bool) (i j : Nat) : Option Nat :=
  if i < j then
    let m := (i + j) / 2
    match f m with
    | none => none
    | some b => if b then searchLoopChecked f i m else searchLoopChecked f (m + 1) j
  else some i
termination_by j - i
decreasing_by
  · omega
  · omega

/-- The compaction package's `indexOfSSTWithKey`: `sort.Search` over
`binProbe`, then `Some(index-1)` when `index > 0` and `None` otherwise.
The outer `none` is the assertion's panic escaping from the search. -/
def indexOfSSTWithKeyBin (firstKeys : List (List Nat)) (key : List Nat) :
    Option (Option Nat) :=
  match searchLoopChecked (binProbe firstKeys key) 0 firstKeys.length with
  | none => none
  | some index => some (if index > 0 then some (index - 1) else none)

theorem searchLoop_spec (f : Nat → Bool) (N : Nat)
    (hmono : ∀ a b, a ≤ b → b < N → f a = true → f b = true) :
    ∀ n i j, j - i ≤ n → i ≤ j → j ≤ N →
      (∀ k, i ≤ k → k < searchLoop f i j → f k = false) ∧
      (∀ k, searchLoop f i j ≤ k → k < j → f k = true) ∧
      i ≤ searchLoop f i j ∧ searchLoop f i j ≤ j := by
  intro n
  induction n with
  | zero =>
    intro i j hn hij _
    have : i = j := by omega
    subst this
    rw [searchLoop, if_neg (lt_irrefl i)]
    exact ⟨fun k h1 h2 => absurd (Nat.lt_of_le_of_lt h1 h2) (lt_irrefl i),
      fun k h1 h2 => absurd (Nat.lt_of_le_of_lt h1 h2) (lt_irrefl i),
      le_refl i, le_refl i⟩
  | succ n ih =>
    intro i j hn hij hjN
    by_cases hlt : i < j
    · rw [searchLoop, if_pos hlt]
      simp only
      set m := (i + j) / 2 with hm
      have him : i ≤ m := by omega
      have hmj : m < j := by omega
      by_cases hf : f m = true
      · rw [if_pos hf]
        have hrec := ih i m (by omega) him (by omega)
        rcases hrec with ⟨hfa, htr, hlo, hhi⟩
        refine ⟨hfa, ?_, hlo, by omega⟩
        intro k hk1 hk2
        by_cases hkm : k < m
        · exact htr k hk1 hkm
        · exact hmono m k (by omega) (by omega) hf
      · rw [if_neg hf]
        have hrec := ih (m + 1) j (by omega) (by omega) hjN
        rcases hrec with ⟨hfa, htr, hlo, hhi⟩
        refine ⟨?_, htr, by omega, hhi⟩
        intro k hk1 hk2
        by_cases hkm : k ≤ m
        · cases hfk : f k with
          | false => rfl
          | true =>
            exact absurd (hmono k m hkm (by omega) hfk) (by simpa using hf)
        · exact hfa k (by omega) hk2
    · rw [searchLoop, if_neg hlt]
      exact ⟨fun k h1 h2 => absurd (Nat.lt_of_le_of_lt h1 h2) (lt_irrefl i),
        fun k h1 h2 => absurd (h1.trans_lt h2) (by omega),
        le_refl i, by omega⟩

theorem gtKey_getD_false_of_ge {firstKeys : List (List Nat)} {key : List Nat} {k : Nat}
    (hk : firstKeys.length ≤ k) : gtKey key (firstKeys.getD k []) = false := by
  rw [List.getD_eq_default _ _ (by omega)]
  cases key with
  | nil => rfl
  | cons c cs => rfl

theorem searchLoop_eq_findIdx (firstKeys : List (List Nat)) (key : List Nat)
    (hsorted : List.Pairwise (fun a b => bytesCompare a b = Ordering.lt) firstKeys) :
    searchLoop (fun i => gtKey key (firstKeys.getD i [])) 0 firstKeys.length =
      firstKeys.findIdx (gtKey key) := by
  have hpair := List.pairwise_iff_getElem.mp hsorted
  set f : Nat → Bool := fun i => gtKey key (firstKeys.getD i []) with hf
  have hmono : ∀ a b, a ≤ b → b < firstKeys.length → f a = true → f b = true := by
    intro a b hab hb hfa
    have ha : a < firstKeys.length := by
      by_contra hge
      rw [hf] at hfa
      simp only at hfa
      rw [gtKey_getD_false_of_ge (by omega)] at hfa
      cases hfa
    rcases Nat.eq_or_lt_of_le hab with heq | hlt
    · subst heq; exact hfa
    · rw [hf] at hfa ⊢
      simp only at hfa ⊢
      rw [List.getD_eq_getElem _ _ ha] at hfa
      rw [List.getD_eq_getElem _ _ hb]
      have h1 : bytesCompare key firstKeys[a] = Ordering.lt := gtKey_true_iff.mp hfa
      have h2 : bytesCompare firstKeys[a] firstKeys[b] = Ordering.lt :=
        hpair a b ha hb hlt
      exact gtKey_true_iff.mpr (bytesCompare_lt_trans h1 h2)
  have hspec := searchLoop_spec f firstKeys.length hmono firstKeys.length 0
    firstKeys.length (by omega) (by omega) (by omega)
  rcases hspec with ⟨hfa, htr, _, hle⟩
  set S := searchLoop f 0 firstKeys.length with hS
  have hJle := @List.findIdx_le_length _ (gtKey key) firstKeys
  rcases Nat.lt_trichotomy S (firstKeys.findIdx (gtKey key)) with hlt | heq | hgt
  · exfalso
    have hSlen : S < firstKeys.length := by omega
    have := htr S (le_refl S) hSlen
    rw [hf] at this
    simp only at this
    rw [List.getD_eq_getElem _ _ hSlen] at this
    have hmin := @List.not_of_lt_findIdx _ (gtKey key) firstKeys _ hlt
    rw [this] at hmin
    cases hmin
  · exact heq
  · exfalso
    have hJlen : firstKeys.findIdx (gtKey key) < firstKeys.length := by omega
    have htrue : gtKey key firstKeys[firstKeys.findIdx (gtKey key)] = true :=
      List.findIdx_getElem (w := hJlen)
    have := hfa (firstKeys.findIdx (gtKey key)) (by omega) hgt
    rw [hf] at this
    simp only at this
    rw [List.getD_eq_getElem _ _ hJlen] at this
    rw [htrue] at this
    cases this

theorem searchLoopChecked_eq (f : Nat → Option Bool) (g : Nat → Bool) (N : Nat)
    (hfg : ∀ m, m < N → f m = some (g m)) :
    ∀ n i j, j - i ≤ n → j ≤ N →
      searchLoopChecked f i j = some (searchLoop g i j) := by
  intro n
  induction n with
  | zero =>
    intro i j hn _
    have hnot : ¬i < j := by omega
    rw [searchLoopChecked, if_neg hnot, searchLoop, if_neg hnot]
  | succ n ih =>
    intro i j hn hjN
    by_cases hlt : i < j
    · rw [searchLoopChecked, if_pos hlt, searchLoop, if_pos hlt]
      simp only
      rw [hfg ((i + j) / 2) (by omega)]
      cases hb : g ((i + j) / 2) with
      | true =>
        simp only [hb, if_true]
        exact ih i ((i + j) / 2) (by omega) (by omega)
      | false =>
        simp only [hb, if_false]
        exact ih ((i + j) / 2 + 1) j (by omega) hjN
    · rw [searchLoopChecked, if_neg hlt, searchLoop, if_neg hlt]

/-- C9: for SST first keys in strictly ascending order — all non-empty, as
an empty probed first key would fail the assertion inside the compaction
predicate and panic — the `sort.Search`-based `indexOfSSTWithKey` of the
compaction package completes without panicking and returns the same result
as the linear-scan `indexOfSSTWithKey` of package `slatedb`: both `none`,
or `some` of the same index. -/
theorem C9_indexOfSSTWithKey_equiv (firstKeys : List (List Nat)) (key : List Nat)
    (hsorted : List.Pairwise (fun a b => bytesCompare a b = Ordering.lt) firstKeys)
    (hne : ∀ fk ∈ firstKeys, fk ≠ []) :
    indexOfSSTWithKeyBin firstKeys key = some (indexOfSSTWithKey firstKeys key) := by
  have hfg : ∀ m, m < firstKeys.length →
      binProbe firstKeys key m = some (gtKey key (firstKeys.getD m [])) := by
    intro m hm
    rw [binProbe]
    rw [List.getD_eq_getElem _ _ hm, if_neg (hne _ (List.getElem_mem hm))]
  unfold indexOfSSTWithKeyBin
  rw [searchLoopChecked_eq (binProbe firstKeys key)
    (fun i => gtKey key (firstKeys.getD i [])) firstKeys.length hfg
    firstKeys.length 0 firstKeys.length (by omega) (le_refl _)]
  rw [searchLoop_eq_findIdx firstKeys key hsorted]
  rw [indexOfSSTWithKey_eq_findIdx]

theorem C9_indexOfSSTWithKey_equiv_witness :
    indexOfSSTWithKeyBin [[1], [3]] [2] = some (indexOfSSTWithKey [[1], [3]] [2]) :=
  C9_indexOfSSTWithKey_equiv [[1], [3]] [2] (by decide) (by decide)

/-! ## `SortedRunIterator.Next`

`NextEntry` pulls successive `KeyValueDeletable` entries from the run's
SST iterators; we model the remaining entry stream as a list, a call to
`NextEntry` popping its head and the empty list meaning exhaustion.
`Next` loops: it skips tombstone entries and converts the first
non-tombstone entry to a `KeyValue`. -/

structure ValueDeletable where
  value : List Nat
  isTombstone : Bool
deriving DecidableEq

structure KeyValueDeletable where
  key : List Nat
  valueDel : ValueDeletable
deriving DecidableEq

structure KeyValue where
  key : List Nat
  value : List Nat
deriving DecidableEq

def srIterNext : List KeyValueDeletable → Option KeyValue × List KeyValueDeletable
  | [] => (none, [])
  | e :: rest =>
    if e.valueDel.isTombstone then srIterNext rest
    else (some ⟨e.key, e.valueDel.value⟩, rest)

/-- All `KeyValue`s yielded by repeatedly calling `Next` until it returns absent. -/
def srIterDrain : List KeyValueDeletable → List KeyValue
  | [] => []
  | e :: rest =>
    if e.valueDel.isTombstone then srIterDrain rest
    else ⟨e.key, e.valueDel.value⟩ :: srIterDrain rest

theorem srIterDrain_eq_next (entries : List KeyValueDeletable) :
    srIterDrain entries =
      match srIterNext entries with
      | (none, _) => []
      | (some kv, rest) => kv :: srIterDrain rest := by
  induction entries with
  | nil => rfl
  | cons e rest ih =>
    by_cases h : e.valueDel.isTombstone
    · simp only [srIterDrain, srIterNext, if_pos h]
      exact ih
    · simp only [srIterDrain, srIterNext, if_neg h]

/-- C8: `SortedRunIterator.Next` yields exactly the non-tombstone entries
produced by `NextEntry`, in order, each converted to a `KeyValue` of key and
byte-sequence value; it never yields a tombstone, and it returns absent
exactly when no non-tombstone entry remains. -/
theorem C8_sortedRunIterator_next_spec (entries : List KeyValueDeletable) :
    srIterDrain entries =
      (entries.filter (fun e => !e.valueDel.isTombstone)).map
        (fun e => ⟨e.key, e.valueDel.value⟩) ∧
    ((srIterNext entries).1 = none ↔
      ∀ e ∈ entries, e.valueDel.isTombstone = true) := by
  constructor
  · induction entries with
    | nil => rfl
    | cons e rest ih =>
      by_cases h : e.valueDel.isTombstone
      · simp [srIterDrain, List.filter_cons, h, ih]
      · simp [srIterDrain, List.filter_cons, h, ih]
  · induction entries with
    | nil => simp [srIterNext]
    | cons e rest ih =>
      by_cases h : e.valueDel.isTombstone
      · simp only [srIterNext, if_pos h]
        rw [ih]
        simp [h]
      · simp [srIterNext, h]

/-! ## `flushImmTable` and preservation of empty values

`flushImmTable` drains a KVTable iterator into an SST builder: a tombstone
entry is added with a nil value (`val` stays the nil slice), any other
entry — including one whose value is the empty byte sequence — is added
with its value bytes.  We model the nil/non-nil distinction of the Go
`[]byte` passed to `AddValue` as `Option (List Nat)`. -/

inductive DbValue where
  | bytes (b : List Nat)
  | tomb
deriving DecidableEq

structure RowEntry where
  key : List Nat
  value : DbValue
deriving DecidableEq

def flushImmTable (entries : List RowEntry) : List (List Nat × Option (List Nat)) :=
  entries.map fun e =>
    (e.key, match e.value with
            | DbValue.tomb => none
            | DbValue.bytes b => some b)

/-- Modelled from the spec: `KVTable.put(key, value)` "inserts or
overwrites" (the KVTable implementation is not among the given sources).
The table is an ordered association list; `put` overwrites the binding of
an existing key in place and otherwise appends a new binding. -/
def kvPut (tbl : List RowEntry) (k : List Nat) (v : DbValue) : List RowEntry :=
  match tbl with
  | [] => [⟨k, v⟩]
  | e :: rest => if e.key = k then ⟨k, v⟩ :: rest else e :: kvPut rest k v

/-- Modelled from the spec: a committed `Get` served from the flushed WAL
SST (the DB read path is not among the given sources).  A stored byte
sequence is returned as-is, a tombstone or an absent key yields
`KeyNotFound`. -/
def sstGet (sst : List (List Nat × Option (List Nat))) (k : List Nat) :
    Option (List Nat) :=
  match sst with
  | [] => none
  | (key, v) :: rest => if key = k then v else sstGet rest k

/-- C2: `Put(K, ∅)` followed by the WAL-to-SST flush leaves `K` readable
with the empty byte sequence, not `KeyNotFound`: `flushImmTable` maps an
empty value to an empty (non-nil) value, distinct from a tombstone's nil. -/
theorem C2_empty_value_preserved (tbl : List RowEntry) (k : List Nat) :
    sstGet (flushImmTable (kvPut tbl k (DbValue.bytes []))) k = some [] := by
  induction tbl with
  | nil => simp [kvPut, flushImmTable, sstGet]
  | cons e rest ih =>
    by_cases h : e.key = k
    · simp [kvPut, h, flushImmTable, sstGet]
    · simp only [kvPut, if_neg h, flushImmTable, List.map_cons, sstGet]
      exact ih

/-! ## `flushImmWALs`: drain order of the ImmWAL queue

The loop takes the oldest ImmutableWAL, writes its SST (`flushImmWAL`),
returning the error at once if the write fails; otherwise it pops the WAL
from the queue (`PopImmWAL`), replays its entries into the live memtable
(`flushImmWALToMemtable`), calls `maybeFreezeMemtable`, and finally signals
`NotifyWALFlushed`.  We record the operations as an event trace; the Bool
result is `false` when the drain returned early with an SST write error. -/

structure ImmWALModel where
  id : Nat
  entries : List RowEntry
deriving DecidableEq

inductive FlushEvent where
  | writeSST (id : Nat)
  | pop (id : Nat)
  | replay (id : Nat)
  | maybeFreeze (id : Nat)
  | notify (id : Nat)
deriving DecidableEq

def flushImmWALsTrace (wFails : Nat → Bool) : List ImmWALModel → List FlushEvent × Bool
  | [] => ([], true)
  | w :: rest =>
    if wFails w.id then ([FlushEvent.writeSST w.id], false)
    else
      let r := flushImmWALsTrace wFails rest
      (FlushEvent.writeSST w.id :: FlushEvent.pop w.id :: FlushEvent.replay w.id ::
        FlushEvent.maybeFreeze w.id :: FlushEvent.notify w.id :: r.1, r.2)

def flushEventId : FlushEvent → Nat
  | FlushEvent.writeSST i => i
  | FlushEvent.pop i => i
  | FlushEvent.replay i => i
  | FlushEvent.maybeFreeze i => i
  | FlushEvent.notify i => i

theorem flushEventId_mem (wFails : Nat → Bool) :
    ∀ (q : List ImmWALModel) (e : FlushEvent),
      e ∈ (flushImmWALsTrace wFails q).1 → flushEventId e ∈ q.map (fun w => w.id) := by
  intro q
  induction q with
  | nil => intro e he; simp [flushImmWALsTrace] at he
  | cons w rest ih =>
    intro e he
    by_cases hfail : wFails w.id
    · simp only [flushImmWALsTrace, if_pos hfail] at he
      simp at he
      subst he
      simp [flushEventId]
    · simp only [flushImmWALsTrace, if_neg hfail] at he
      simp only [List.mem_cons] at he
      rcases he with h | h | h | h | h | h
      all_goals first
        | (subst h; simp [flushEventId])
        | (simp only [List.map_cons, List.mem_cons]; exact Or.inr (ih e h))

/-- C1 counterexample: with a single ImmutableWAL of id 1 and no write
failure, the drain trace pops the WAL from the queue (index 1) strictly
before its durability notification is signalled (index 4), contradicting
the claimed pop-last order. -/
theorem C1_counterexample :
    (flushImmWALsTrace (fun _ => false) [⟨1, []⟩]).1 =
      [FlushEvent.writeSST 1, FlushEvent.pop 1, FlushEvent.replay 1,
        FlushEvent.maybeFreeze 1, FlushEvent.notify 1] ∧
    List.indexOf (FlushEvent.pop 1) (flushImmWALsTrace (fun _ => false) [⟨1, []⟩]).1 <
      List.indexOf (FlushEvent.notify 1) (flushImmWALsTrace (fun _ => false) [⟨1, []⟩]).1 := by
  constructor <;> decide

/-- C1 (amended): for every ImmutableWAL whose processing completes (its
durability notification appears in the trace), the five steps occur in the
order: write SST, pop from the queue, replay into the memtable,
maybe-freeze the memtable, signal durability — the pop happening after the
successful SST write but before the durability notification — and, the
queue ids being distinct, each of these events occurs exactly once. -/
theorem C1_amended_drain_order (wFails : Nat → Bool) (q : List ImmWALModel)
    (hnodup : (q.map (fun w => w.id)).Nodup) (w : ImmWALModel) (hw : w ∈ q)
    (hproc : FlushEvent.notify w.id ∈ (flushImmWALsTrace wFails q).1) :
    [FlushEvent.writeSST w.id, FlushEvent.pop w.id, FlushEvent.replay w.id,
      FlushEvent.maybeFreeze w.id, FlushEvent.notify w.id].Sublist
        (flushImmWALsTrace wFails q).1 ∧
    (flushImmWALsTrace wFails q).1.count (FlushEvent.pop w.id) = 1 ∧
    (flushImmWALsTrace wFails q).1.count (FlushEvent.notify w.id) = 1 := by
  induction q with
  | nil => simp [flushImmWALsTrace] at hproc
  | cons w0 rest ih =>
    simp only [List.map_cons, List.nodup_cons] at hnodup
    rcases hnodup with ⟨hw0notin, hnodup'⟩
    by_cases hfail : wFails w0.id
    · simp only [flushImmWALsTrace, if_pos hfail] at hproc
      simp at hproc
    · simp only [flushImmWALsTrace, if_neg hfail] at hproc ⊢
      rcases List.mem_cons.mp hw with heq | hmem
    -- w is the head of the queue: its block is the leading prefix
      · subst heq
        refine ⟨?_, ?_, ?_⟩
        · exact List.sublist_append_left _ _
        · have hzero : (flushImmWALsTrace wFails rest).1.count (FlushEvent.pop w.id) = 0 := by
            rw [List.count_eq_zero]
            intro hmem'
            exact hw0notin (by simpa [flushEventId] using flushEventId_mem wFails rest _ hmem')
          simp [List.count_cons, hzero]
        · have hzero : (flushImmWALsTrace wFails rest).1.count (FlushEvent.notify w.id) = 0 := by
            rw [List.count_eq_zero]
            intro hmem'
            exact hw0notin (by simpa [flushEventId] using flushEventId_mem wFails rest _ hmem')
          simp [List.count_cons, hzero]
    -- w is further down the queue
      · have hne : w.id ≠ w0.id := by
          intro hc
          exact hw0notin (hc ▸ List.mem_map_of_mem (fun x => x.id) hmem)
        have hproc' : FlushEvent.notify w.id ∈ (flushImmWALsTrace wFails rest).1 := by
          simp only [List.mem_cons] at hproc
          rcases hproc with h | h | h | h | h | h
          · cases h
          · cases h
          · cases h
          · cases h
          · exact absurd (FlushEvent.notify.inj h) hne
          · exact h
        rcases ih hnodup' hmem hproc' with ⟨hsub, hcp, hcn⟩
        refine ⟨?_, ?_, ?_⟩
        · exact ((((hsub.cons _).cons _).cons _).cons _).cons _
        · simp [List.count_cons, hcp, hne, Ne.symm hne]
        · simp [List.count_cons, hcn, hne, Ne.symm hne]

theorem C1_amended_drain_order_witness :
    [FlushEvent.writeSST 1, FlushEvent.pop 1, FlushEvent.replay 1,
      FlushEvent.maybeFreeze 1, FlushEvent.notify 1].Sublist
        (flushImmWALsTrace (fun _ => false) [⟨1, []⟩]).1 ∧
    (flushImmWALsTrace (fun _ => false) [⟨1, []⟩]).1.count (FlushEvent.pop 1) = 1 ∧
    (flushImmWALsTrace (fun _ => false) [⟨1, []⟩]).1.count (FlushEvent.notify 1) = 1 :=
  C1_amended_drain_order (fun _ => false) [⟨1, []⟩] (by decide) ⟨1, []⟩ (by decide)
    (by decide)

/-! ## The WAL flush task loop (`spawnWALFlushTask`)

The goroutine's `select` loop: a ticker tick calls `FlushWAL` (logging any
error) and continues looping; a message on the notifier channel calls
`FlushWAL` and then `return`s.  We model the sequence of wakes as an event
list; the result is the number of `FlushWAL` calls performed and whether
the loop exited (`true`) rather than still running when the events ran
out. -/

inductive WalFlushWake where
  | tick
  | request
deriving DecidableEq

def walFlushLoop : List WalFlushWake → Nat × Bool
  | [] => (0, false)
  | WalFlushWake.tick :: rest =>
    let r := walFlushLoop rest
    (r.1 + 1, r.2)
  | WalFlushWake.request :: _ => (1, true)

/-- C4 counterexample: after an explicit request delivered through the
channel the loop does not keep running — it flushes once and exits, and a
subsequent tick is never processed (one flush, exited), where the claim
requires the loop to continue (two flushes, still running). -/
theorem C4_counterexample :
    walFlushLoop [WalFlushWake.request, WalFlushWake.tick] = (1, true) ∧
    walFlushLoop [WalFlushWake.request, WalFlushWake.tick] ≠ (2, false) := by
  constructor <;> decide

/-- C4 (amended): ticker ticks each perform the freeze-and-drain and keep
the loop running; any request delivered through the channel — the channel
is used only for shutdown — makes the loop drain once more and exit.  The
loop exits exactly when a channel request occurs, and the number of
`FlushWAL` calls is one per leading tick plus one for the terminating
request. -/
theorem C4_amended_loop_exit (events : List WalFlushWake) :
    ((walFlushLoop events).2 = true ↔ WalFlushWake.request ∈ events) ∧
    (walFlushLoop events).1 =
      (events.takeWhile (fun e => decide (e = WalFlushWake.tick))).length +
        (if WalFlushWake.request ∈ events then 1 else 0) := by
  induction events with
  | nil => simp [walFlushLoop]
  | cons e rest ih =>
    cases e with
    | tick =>
      rcases ih with ⟨ih1, ih2⟩
      constructor
      · simpa [walFlushLoop] using ih1
      · simp [walFlushLoop, List.takeWhile_cons, ih2]
        omega
    | request => simp [walFlushLoop, List.takeWhile_cons]

/-! ## `writeManifestSafely`

Each loop iteration calls `loadManifest` (a manifest refresh followed by
`RefreshDBState`) and returns its error if it fails; then `writeManifest`
(`UpdateDBState` on the core snapshot): an `ErrAlreadyExists` result is
logged and the loop retries, any other error is returned unchanged, and a
successful write returns nil.  The environment's responses to the
successive iterations form the `rounds` script; the result is `none` when
the script is exhausted with the loop still retrying, `some none` for a
nil return, and `some (some e)` for returning error `e`. -/

inductive LoadOutcome where
  | ok
  | err (e : Nat)
deriving DecidableEq

inductive WriteOutcome where
  | ok
  | alreadyExists
  | err (e : Nat)
deriving DecidableEq

structure ManifestRound where
  load : LoadOutcome
  write : WriteOutcome
deriving DecidableEq

def writeManifestSafely : List ManifestRound → Option (Option Nat)
  | [] => none
  | r :: rest =>
    match r.load with
    | LoadOutcome.err e => some (some e)
    | LoadOutcome.ok =>
      match r.write with
      | WriteOutcome.alreadyExists => writeManifestSafely rest
      | WriteOutcome.err e => some (some e)
      | WriteOutcome.ok => some none

/-- A round the loop retries past: refresh succeeded and the write failed
with `AlreadyExists`. -/
def isRetryRound (r : ManifestRound) : Bool :=
  decide (r = ⟨LoadOutcome.ok, WriteOutcome.alreadyExists⟩)

/-- C5: `writeManifestSafely` refreshes then writes; it loops past every
`AlreadyExists` write conflict, so its outcome is decided by the first
round that is not an ok-refresh/`AlreadyExists` retry: it returns nil
exactly when that round's refresh and write both succeed, it propagates
the first other error unchanged (whether from the refresh or from the
write), and it keeps looping exactly as long as every round is a retry. -/
theorem C5_writeManifestSafely_spec (rounds : List ManifestRound) :
    (writeManifestSafely rounds = some none ↔
      (rounds.dropWhile isRetryRound).head? =
        some ⟨LoadOutcome.ok, WriteOutcome.ok⟩) ∧
    (∀ e, writeManifestSafely rounds = some (some e) ↔
      ∃ r, (rounds.dropWhile isRetryRound).head? = some r ∧
        (r.load = LoadOutcome.err e ∨
          (r.load = LoadOutcome.ok ∧ r.write = WriteOutcome.err e))) ∧
    (writeManifestSafely rounds = none ↔
      ∀ r ∈ rounds, r = ⟨LoadOutcome.ok, WriteOutcome.alreadyExists⟩) := by
  induction rounds with
  | nil => simp [writeManifestSafely]
  | cons r rest ih =>
    by_cases hr : r = ⟨LoadOutcome.ok, WriteOutcome.alreadyExists⟩
    · subst hr
      rcases ih with ⟨ih1, ih2, ih3⟩
      refine ⟨?_, ?_, ?_⟩
      · simpa [writeManifestSafely, List.dropWhile_cons, isRetryRound] using ih1
      · intro e
        simpa [writeManifestSafely, List.dropWhile_cons, isRetryRound] using ih2 e
      · simpa [writeManifestSafely, List.dropWhile_cons, isRetryRound] using ih3
    · have hdrop : ((r :: rest).dropWhile isRetryRound).head? = some r := by
        simp [List.dropWhile_cons, isRetryRound, hr]
      cases hload : r.load with
      | err e0 =>
        have hcomp : writeManifestSafely (r :: rest) = some (some e0) := by
          simp [writeManifestSafely, hload]
        refine ⟨?_, ?_, ?_⟩
        · rw [hcomp, hdrop]
          constructor
          · intro hc; simp at hc
          · intro hc
            have hre : r = ⟨LoadOutcome.ok, WriteOutcome.ok⟩ := by simpa using hc
            rw [hre] at hload
            cases hload
        · intro e
          rw [hcomp, hdrop]
          constructor
          · intro hc
            have he : e0 = e := by simpa using hc
            exact ⟨r, rfl, Or.inl (by rw [hload, he])⟩
          · rintro ⟨r', hr', hcase⟩
            have : r = r' := by simpa using hr'
            subst this
            rcases hcase with h | ⟨h, _⟩
            · rw [hload] at h
              rw [LoadOutcome.err.inj h]
            · rw [hload] at h; cases h
        · rw [hcomp]
          constructor
          · intro hc; simp at hc
          · intro hall
            exact absurd (hall r (by simp)) hr
      | ok =>
        cases hwrite : r.write with
        | alreadyExists =>
          exfalso
          apply hr
          obtain ⟨l, w⟩ := r
          simp only at hload hwrite
          rw [hload, hwrite]
        | err e0 =>
          have hcomp : writeManifestSafely (r :: rest) = some (some e0) := by
            simp [writeManifestSafely, hload, hwrite]
          refine ⟨?_, ?_, ?_⟩
          · rw [hcomp, hdrop]
            constructor
            · intro hc; simp at hc
            · intro hc
              have hre : r = ⟨LoadOutcome.ok, WriteOutcome.ok⟩ := by simpa using hc
              rw [hre] at hwrite
              cases hwrite
          · intro e
            rw [hcomp, hdrop]
            constructor
            · intro hc
              have he : e0 = e := by simpa using hc
              exact ⟨r, rfl, Or.inr ⟨hload, by rw [hwrite, he]⟩⟩
            · rintro ⟨r', hr', hcase⟩
              have : r = r' := by simpa using hr'
              subst this
              rcases hcase with h | ⟨_, h⟩
              · rw [hload] at h; cases h
              · rw [hwrite] at h
                rw [WriteOutcome.err.inj h]
          · rw [hcomp]
            constructor
            · intro hc; simp at hc
            · intro hall
              exact absurd (hall r (by simp)) hr
        | ok =>
          have hcomp : writeManifestSafely (r :: rest) = some none := by
            simp [writeManifestSafely, hload, hwrite]
          have hre : r = ⟨LoadOutcome.ok, WriteOutcome.ok⟩ := by
            obtain ⟨l, w⟩ := r
            simp only at hload hwrite
            rw [hload, hwrite]
          refine ⟨?_, ?_, ?_⟩
          · rw [hcomp, hdrop, hre]
            simp
          · intro e
            rw [hcomp, hdrop]
            constructor
            · intro hc; simp at hc
            · rintro ⟨r', hr', hcase⟩
              have : r = r' := by simpa using hr'
              subst this
              rcases hcase with h | ⟨_, h⟩
              · rw [hload] at h; cases h
              · rw [hwrite] at h; cases h
          · rw [hcomp]
            constructor
            · intro hc; simp at hc
            · intro hall
              exact absurd (hall r (by simp)) hr

/-! ## `TableStore.WriteSST`

`WriteSST` concatenates the built table's blocks into one byte buffer,
uploads it as a single object under `sstPath(id)`, returning
`common.ErrObjectStore` (leaving all state untouched) if the upload fails;
on success it inserts the table's bloom filter into the filter cache under
the SST id and returns a handle of that id and the table's `Info`.  The
object store and the filter cache are carried as explicit state; `Info`
and bloom filters are opaque.  `path.Join` is modelled for the clean
segment names used here (no `.`/`..` cleaning). -/

inductive SstIdType where
  | wal
  | compacted
deriving DecidableEq

structure SstId where
  type : SstIdType
  value : List Char
deriving DecidableEq

def walDir : List Char := ['w', 'a', 'l']

def compactedDir : List Char := ['c', 'o', 'm', 'p', 'a', 'c', 't', 'e', 'd']

def sstExt : List Char := ['.', 's', 's', 't']

def joinPath (elems : List (List Char)) : List Char :=
  List.intercalate ['/'] (elems.filter (fun e => !e.isEmpty))

def sstPath (rootPath : List Char) (id : SstId) : List Char :=
  match id.type with
  | SstIdType.wal => joinPath [rootPath, walDir, id.value ++ sstExt]
  | SstIdType.compacted => joinPath [rootPath, compactedDir, id.value ++ sstExt]

structure BuiltSST where
  blocks : List (List Nat)
  bloom : Option Nat
  info : Nat
deriving DecidableEq

structure SSTHandle where
  id : SstId
  info : Nat
deriving DecidableEq

structure TableStoreState where
  objects : List (List Char × List Nat)
  filterCache : List (SstId × Option Nat)
deriving DecidableEq

inductive DBErr where
  | objectStore
  | invalidDBState
deriving DecidableEq

def concatBlocks : List (List Nat) → List Nat
  | [] => []
  | b :: rest => b ++ concatBlocks rest

def cacheFilter (st : TableStoreState) (id : SstId) (f : Option Nat) : TableStoreState :=
  { st with filterCache := (id, f) :: st.filterCache }

def filterCacheGet : List (SstId × Option Nat) → SstId → Option (Option Nat)
  | [], _ => none
  | (k, v) :: rest, id => if k = id then some v else filterCacheGet rest id

def WriteSST (uploadOk : Bool) (st : TableStoreState) (rootPath : List Char)
    (id : SstId) (t : BuiltSST) : TableStoreState × Except DBErr SSTHandle :=
  let p := sstPath rootPath id
  let blocksData := concatBlocks t.blocks
  if uploadOk then
    let st1 : TableStoreState := { st with objects := (p, blocksData) :: st.objects }
    (cacheFilter st1 id t.bloom, Except.ok ⟨id, t.info⟩)
  else (st, Except.error DBErr.objectStore)

theorem concatBlocks_eq_join (blocks : List (List Nat)) :
    concatBlocks blocks = blocks.flatten := by
  induction blocks with
  | nil => rfl
  | cons b rest ih => simp [concatBlocks, ih]

/-- C6: on a successful upload `WriteSST` stores the concatenation of the
table's blocks as a single object under the SST's path, caches the
table's bloom filter under the SST id, and returns a handle of that id and
the table's `Info`; on a failed upload it returns `ErrObjectStore` and
leaves the state — in particular the filter cache — unchanged. -/
theorem C6_WriteSST_spec (st : TableStoreState) (rootPath : List Char) (id : SstId)
    (t : BuiltSST) :
    ((WriteSST true st rootPath id t).1.objects =
        (sstPath rootPath id, t.blocks.flatten) :: st.objects ∧
      filterCacheGet (WriteSST true st rootPath id t).1.filterCache id = some t.bloom ∧
      (WriteSST true st rootPath id t).2 = Except.ok ⟨id, t.info⟩) ∧
    ((WriteSST false st rootPath id t).1 = st ∧
      (WriteSST false st rootPath id t).2 = Except.error DBErr.objectStore) := by
  refine ⟨⟨?_, ?_, rfl⟩, rfl, rfl⟩
  · simp [WriteSST, cacheFilter, concatBlocks_eq_join]
  · simp [WriteSST, cacheFilter, filterCacheGet]

/-! ## WAL SST listing: `getWalSSTList` and `parseID`

Go strings are embedded as `List Char`.  `strings.Contains`, `path.Ext`,
`path.Base`, `strings.Replace(s, old, new, 1)` with an empty replacement,
and `strconv.ParseUint(s, 10, 64)` are embedded below.  `parseID` begins
with `common.AssertTrue(path.Ext(filepath) == expectedExt, ...)`, which
panics when the extension differs; a panic is modelled as the outer
`none`, a `ParseUint` failure (returning `ErrInvalidDBState`) as the inner
`none`. -/

def hasSubstr (pat : List Char) : List Char → Bool
  | [] => decide (pat = [])
  | c :: rest => pat.isPrefixOf (c :: rest) || hasSubstr pat rest

def extScan : List Char → List Char → List Char
  | _, [] => []
  | acc, c :: rest =>
    if c = '/' then []
    else if c = '.' then c :: acc
    else extScan (c :: acc) rest

/-- Go `path.Ext`: the suffix from the final dot of the final
slash-separated element, empty when that element has no dot. -/
def pathExt (p : List Char) : List Char := extScan [] p.reverse

/-- Go `path.Base`: strip trailing slashes and take the part after the
last remaining slash; `"."` for the empty path, `"/"` for all-slash
paths. -/
def pathBase (p : List Char) : List Char :=
  if p = [] then ['.']
  else
    let rev := p.reverse.dropWhile (fun c => decide (c = '/'))
    if rev = [] then ['/']
    else (rev.takeWhile (fun c => !decide (c = '/'))).reverse

/-- Go `strings.Replace(s, old, "", 1)`: delete the first occurrence of
`old`. -/
def replaceFirst (old : List Char) : List Char → List Char
  | [] => []
  | c :: rest =>
    if old.isPrefixOf (c :: rest) then (c :: rest).drop old.length
    else c :: replaceFirst old rest

/-- Go `strconv.ParseUint(s, 10, 64)`: requires a non-empty all-digit
string whose value fits in 64 bits. -/
def parseUint64 (s : List Char) : Option Nat :=
  if s = [] then none
  else if s.all Char.isDigit then
    let v := s.foldl (fun acc c => acc * 10 + (c.toNat - 48)) 0
    if v < 2 ^ 64 then some v else none
  else none

def parseID (filepath expectedExt : List Char) : Option (Option Nat) :=
  if pathExt filepath = expectedExt then
    some (parseUint64 (replaceFirst expectedExt (pathBase filepath)))
  else none

/-- One callback invocation of the `bucket.Iter` loop in `getWalSSTList`:
paths containing `".sst"` are parsed with `parseID`, ids above the
watermark are appended; a `parseID` error skips the entry, a `parseID`
panic (outer `none`) aborts. -/
def walListStep (above : Nat) (acc : Option (List Nat)) (p : List Char) :
    Option (List Nat) :=
  match acc with
  | none => none
  | some l =>
    if hasSubstr sstExt p then
      match parseID p sstExt with
      | none => none
      | some none => some l
      | some (some id) => if id > above then some (l ++ [id]) else some l
    else some l

/-- `getWalSSTList`: iterate the WAL directory listing (a failed listing
returns `ErrObjectStore`), collect ids, and sort ascending
(`slices.Sort`, modelled by insertion sort).  The outer `none` is a
panic escaping from `parseID`'s assertion. -/
def getWalSSTList (listing : Except Unit (List (List Char))) (above : Nat) :
    Option (Except DBErr (List Nat)) :=
  match listing with
  | Except.error _ => some (Except.error DBErr.objectStore)
  | Except.ok paths =>
    match paths.foldl (walListStep above) (some []) with
    | none => none
    | some l => some (Except.ok (List.insertionSort (fun a b => a ≤ b) l))

/-- The id contributed by a single listing entry: parsed from a `".sst"`
entry and strictly above the watermark. -/
def walIdOfPath (above : Nat) (p : List Char) : Option Nat :=
  if hasSubstr sstExt p then
    match parseID p sstExt with
    | some (some id) => if id > above then some id else none
    | _ => none
  else none

theorem walList_foldl_eq (above : Nat) (paths : List (List Char))
    (hwf : ∀ p ∈ paths, hasSubstr sstExt p = true → pathExt p = sstExt) :
    ∀ acc : List Nat,
      paths.foldl (walListStep above) (some acc) =
        some (acc ++ paths.filterMap (walIdOfPath above)) := by
  induction paths with
  | nil => intro acc; simp
  | cons p rest ih =>
    intro acc
    have hwfp := hwf p (by simp)
    have hwfrest : ∀ q ∈ rest, hasSubstr sstExt q = true → pathExt q = sstExt :=
      fun q hq => hwf q (by simp [hq])
    by_cases hsub : hasSubstr sstExt p = true
    · have hext := hwfp hsub
      have hpid : parseID p sstExt = some (parseUint64 (replaceFirst sstExt (pathBase p))) := by
        rw [parseID, if_pos hext]
      cases hparse : parseUint64 (replaceFirst sstExt (pathBase p)) with
      | none =>
        have hstep : walListStep above (some acc) p = some acc := by
          rw [walListStep]
          simp only [if_pos hsub, hpid, hparse]
        have hid : walIdOfPath above p = none := by
          rw [walIdOfPath, if_pos hsub, hpid, hparse]
        simp only [List.foldl_cons, hstep, List.filterMap_cons, hid]
        exact ih hwfrest acc
      | some id =>
        by_cases habove : id > above
        · have hstep : walListStep above (some acc) p = some (acc ++ [id]) := by
            rw [walListStep]
            simp only [if_pos hsub, hpid, hparse, if_pos habove]
          have hid : walIdOfPath above p = some id := by
            rw [walIdOfPath, if_pos hsub, hpid, hparse]
            simp [habove]
          simp only [List.foldl_cons, hstep, List.filterMap_cons, hid]
          rw [ih hwfrest (acc ++ [id])]
          simp
        · have hstep : walListStep above (some acc) p = some acc := by
            rw [walListStep]
            simp only [if_pos hsub, hpid, hparse, if_neg habove]
          have hid : walIdOfPath above p = none := by
            rw [walIdOfPath, if_pos hsub, hpid, hparse]
            simp [habove]
          simp only [List.foldl_cons, hstep, List.filterMap_cons, hid]
          exact ih hwfrest acc
    · have hsub' : hasSubstr sstExt p = false := by
        cases h : hasSubstr sstExt p
        · rfl
        · exact absurd h hsub
      have hstep : walListStep above (some acc) p = some acc := by
        rw [walListStep]
        simp only [hsub', Bool.false_eq_true, if_false]
      have hid : walIdOfPath above p = none := by
        rw [walIdOfPath]
        simp only [hsub', Bool.false_eq_true, if_false]
      simp only [List.foldl_cons, hstep, List.filterMap_cons, hid]
      exact ih hwfrest acc

/-- C7 counterexample: the listing entry `"wal/1.sst.bak"` contains
`".sst"` but its extension is `".bak"`, so `parseID`'s assertion fails
and `getWalSSTList` panics — it returns neither a list nor an
`ErrObjectStore`, contradicting the claim's total description. -/
theorem C7_counterexample :
    getWalSSTList
      (Except.ok [['w', 'a', 'l', '/', '1', '.', 's', 's', 't', '.', 'b', 'a', 'k']]) 0 =
      none := by
  rfl

/-- C7 (amended): provided every listing entry containing `".sst"` has
extension `".sst"` (otherwise `parseID`'s assertion panics), the ids
returned are exactly those parsed from the `".sst"` entries that are
strictly greater than the watermark, sorted ascending; a failed directory
listing returns `ErrObjectStore` and no list. -/
theorem C7_amended_getWalSSTList (paths : List (List Char)) (above : Nat)
    (hwf : ∀ p ∈ paths, hasSubstr sstExt p = true → pathExt p = sstExt) :
    (∃ l, getWalSSTList (Except.ok paths) above = some (Except.ok l) ∧
      l.Perm (paths.filterMap (walIdOfPath above)) ∧
      List.Sorted (fun a b : Nat => a ≤ b) l) ∧
    getWalSSTList (Except.error ()) above = some (Except.error DBErr.objectStore) := by
  constructor
  · refine ⟨List.insertionSort (fun a b => a ≤ b)
      (paths.filterMap (walIdOfPath above)), ?_, ?_, ?_⟩
    · rw [getWalSSTList]
      rw [walList_foldl_eq above paths hwf []]
      simp
    · exact List.perm_insertionSort _ _
    · exact List.sorted_insertionSort _ _
  · rfl

theorem C7_amended_getWalSSTList_witness :
    (∃ l, getWalSSTList
        (Except.ok [['w', 'a', 'l', '/', '7', '.', 's', 's', 't'],
          ['w', 'a', 'l', '/', '2', '.', 's', 's', 't']]) 1 =
        some (Except.ok l) ∧
      l.Perm ([['w', 'a', 'l', '/', '7', '.', 's', 's', 't'],
          ['w', 'a', 'l', '/', '2', '.', 's', 's', 't']].filterMap (walIdOfPath 1)) ∧
      List.Sorted (fun a b : Nat => a ≤ b) l) ∧
    getWalSSTList (Except.error ()) 1 = some (Except.error DBErr.objectStore) :=
  C7_amended_getWalSSTList
    [['w', 'a', 'l', '/', '7', '.', 's', 's', 't'],
      ['w', 'a', 'l', '/', '2', '.', 's', 's', 't']] 1 (by decide)

/-- C10: when every listing entry containing `".sst"` also has `".sst"`
as its extension, `parseID`'s assertion always holds, so `getWalSSTList`
is total (never panics); and an entry whose base name is not a decimal
u64 is silently skipped — removing it leaves the result unchanged and in
particular causes no error. -/
theorem C10_parseID_assert_safety (paths : List (List Char)) (above : Nat)
    (hwf : ∀ p ∈ paths, hasSubstr sstExt p = true → pathExt p = sstExt) :
    getWalSSTList (Except.ok paths) above ≠ none ∧
    ∀ p, hasSubstr sstExt p = true → pathExt p = sstExt →
      parseUint64 (replaceFirst sstExt (pathBase p)) = none →
      getWalSSTList (Except.ok (p :: paths)) above =
        getWalSSTList (Except.ok paths) above := by
  constructor
  · rw [getWalSSTList, walList_foldl_eq above paths hwf []]
    simp
  · intro p hsub hext hparse
    have hstep : walListStep above (some []) p = some [] := by
      rw [walListStep]
      simp only [if_pos hsub, parseID, if_pos hext, hparse]
    rw [getWalSSTList, getWalSSTList, List.foldl_cons, hstep]

theorem C10_parseID_assert_safety_witness :
    getWalSSTList (Except.ok [['w', 'a', 'l', '/', '7', '.', 's', 's', 't']]) 1 ≠ none ∧
    ∀ p, hasSubstr sstExt p = true → pathExt p = sstExt →
      parseUint64 (replaceFirst sstExt (pathBase p)) = none →
      getWalSSTList (Except.ok (p :: [['w', 'a', 'l', '/', '7', '.', 's', 's', 't']])) 1 =
        getWalSSTList (Except.ok [['w', 'a', 'l', '/', '7', '.', 's', 's', 't']]) 1 :=
  C10_parseID_assert_safety [['w', 'a', 'l', '/', '7', '.', 's', 's', 't']] 1 (by decide)
